import Mathlib

/-!
A verification development for the beacon document-structure and retrieval
engine.  The definitions below are shallow embeddings of the JavaScript and
TypeScript source:

* the page-offset translator of src/components/BeaconRealtimeVoice.js
  (functions getPageOffset, handleUserPageChange, the show_page handler);
* the roman-numeral conversion, printed-page-number detection, per-page
  analysis, table-of-contents extraction and content-start resolution of
  src/app/api/extract-text/route.ts;
* the three-stage search of the search_pdf handler in
  src/components/BeaconRealtimeVoice.js.

Machine numbers are modelled as Int and Nat (no overflow is reachable in any
of the embedded code paths).  Calls into external engines that are not code
of this repository, namely the JavaScript regular-expression engine and the
SQL ilike operator, are modelled as follows: ilike is case-insensitive
substring containment (exactly how the code uses it), and each regular
expression applied by the source is abstracted as an arbitrary candidate
match it may produce, so that every theorem quantifies over all possible
matcher behaviours.  Everything else is translated statement for statement
from the source.
-/

set_option maxRecDepth 4000
set_option linter.unusedVariables false

/-! ## Generic helpers -/

/-- First-index search returning an optional index, mirroring the
JavaScript idiom of scanning an array for the first element satisfying a
predicate. -/
def findIdxO (f : α → Bool) : List α → Option Nat
  | [] => none
  | a :: rest => if f a then some 0 else (findIdxO f rest).map (· + 1)

theorem findIdxO_of_mem {f : α → Bool} :
    ∀ {l : List α}, (∃ p ∈ l, f p = true) → ∃ k, findIdxO f l = some k := by
  intro l h
  induction l with
  | nil => rcases h with ⟨p, hp, _⟩; cases hp
  | cons a rest ih =>
    by_cases ha : f a = true
    · exact ⟨0, by simp [findIdxO, ha]⟩
    · rcases h with ⟨p, hp, hfp⟩
      rcases List.mem_cons.mp hp with rfl | hp
      · exact absurd hfp ha
      · rcases ih ⟨p, hp, hfp⟩ with ⟨k, hk⟩
        exact ⟨k + 1, by simp [findIdxO, ha, hk]⟩

theorem findIdxO_get {f : α → Bool} :
    ∀ {l : List α} {k : Nat}, findIdxO f l = some k →
      ∃ p, l.get? k = some p ∧ f p = true := by
  intro l
  induction l with
  | nil => intro k h; simp [findIdxO] at h
  | cons a rest ih =>
    intro k h
    by_cases ha : f a = true
    · simp [findIdxO, ha] at h
      exact ⟨a, by simp [← h], ha⟩
    · simp [findIdxO, ha] at h
      rcases h with ⟨k0, hk0, rfl⟩
      rcases ih hk0 with ⟨p, hg, hfp⟩
      exact ⟨p, by simpa using hg, hfp⟩

theorem findIdxO_min {f : α → Bool} :
    ∀ {l : List α} {k : Nat}, findIdxO f l = some k →
      ∀ j, j < k → ∀ q, l.get? j = some q → f q = false := by
  intro l
  induction l with
  | nil => intro k h; simp [findIdxO] at h
  | cons a rest ih =>
    intro k h j hj q hq
    by_cases ha : f a = true
    · simp [findIdxO, ha] at h; omega
    · simp [findIdxO, ha] at h
      rcases h with ⟨k0, hk0, rfl⟩
      cases j with
      | zero =>
        simp at hq
        simpa [← hq] using ha
      | succ j0 =>
        exact ih hk0 j0 (by omega) q (by simpa using hq)

theorem findIdxO_eq_none {f : α → Bool} :
    ∀ {l : List α}, (∀ p ∈ l, f p = false) → findIdxO f l = none := by
  intro l h
  induction l with
  | nil => rfl
  | cons a rest ih =>
    have ha := h a (by simp)
    simp [findIdxO, ha]
    exact ih fun p hp => h p (by simp [hp])

/-- Lowercase every character of a string, the model of the JavaScript
toLowerCase operation on the ASCII texts the code handles. -/
def lowerStr (s : String) : String := String.mk (s.data.map Char.toLower)

/-- Whether the first list is an initial segment of the second. -/
def headMatch : List Char → List Char → Bool
  | [], _ => true
  | _ :: _, [] => false
  | a :: as, b :: bs => a == b && headMatch as bs

/-- Substring containment on character lists. -/
def hasSub : List Char → List Char → Bool
  | hay, needle =>
    if headMatch needle hay then true
    else
      match hay with
      | [] => false
      | _ :: t => hasSub t needle

/-- The model of the SQL operator ilike with a pattern of the shape
percent-query-percent, exactly how the search code of
BeaconRealtimeVoice.js builds its patterns: case-insensitive substring
containment of the query in the page content. -/
def ilike (content pat : String) : Bool :=
  hasSub (lowerStr content).data (lowerStr pat).data

/-- Stable insertion step for an ascending sort by a Nat key. -/
def insAsc (key : α → Nat) (x : α) : List α → List α
  | [] => [x]
  | y :: ys => if key x ≤ key y then x :: y :: ys else y :: insAsc key x ys

/-- Ascending sort by a Nat key, the model of an SQL order-by-ascending. -/
def sortAscBy (key : α → Nat) (l : List α) : List α := l.foldr (insAsc key) []

/-- Stable insertion step for a descending sort by an Int key. -/
def insDesc (key : α → Int) (x : α) : List α → List α
  | [] => [x]
  | y :: ys => if key y ≤ key x then x :: y :: ys else y :: insDesc key x ys

/-- Descending sort by an Int key, the model of the JavaScript
score-comparator sort used by the word-overlap search stage. -/
def sortDescBy (key : α → Int) (l : List α) : List α := l.foldr (insDesc key) []

theorem length_insAsc (key : α → Nat) (x : α) :
    ∀ l : List α, (insAsc key x l).length = l.length + 1 := by
  intro l
  induction l with
  | nil => rfl
  | cons y ys ih => by_cases h : key x ≤ key y <;> simp [insAsc, h, ih]

theorem length_sortAscBy (key : α → Nat) :
    ∀ l : List α, (sortAscBy key l).length = l.length := by
  intro l
  induction l with
  | nil => rfl
  | cons y ys ih => simp [sortAscBy, List.foldr] at ih ⊢; simp [length_insAsc, ih]

/-- Sequence a list of optional values, none as soon as one entry is none. -/
def seqOpt : List (Option Int) → Option (List Int)
  | [] => some []
  | none :: _ => none
  | some v :: rest => (seqOpt rest).map (v :: ·)

/-! ## Page-Offset Translator (src/components/BeaconRealtimeVoice.js) -/

/-- Embeds getPageOffset of BeaconRealtimeVoice.js: the stored
content-start page is optional (no document selected gives none) and a
zero value is falsy in JavaScript, in which case the offset is 0. -/
def getPageOffset (content_starts_at_page : Option Int) : Int :=
  match content_starts_at_page with
  | some c => if c ≠ 0 then -(c - 1) else 0
  | none => 0

/-- Embeds the printed-page computation of handleUserPageChange and of the
search-result formatting: printed number equals physical index plus
offset. -/
def physicalToPrinted (content_starts_at_page : Option Int) (physical : Int) : Int :=
  physical + getPageOffset content_starts_at_page

/-- Embeds the show_page handler: the physical (database) page equals the
spoken printed number minus the offset. -/
def printedToPhysical (content_starts_at_page : Option Int) (printed : Int) : Int :=
  printed - getPageOffset content_starts_at_page

/-- Claim C1: for every document whose content-start page is at least 1,
the offset is the negation of the content-start page minus one, and the
physical-to-printed and printed-to-physical translations are mutually
inverse on all integer page indices. -/
theorem pageOffset_roundTrip (c x : Int) (h : 1 ≤ c) :
    getPageOffset (some c) = -(c - 1)
    ∧ printedToPhysical (some c) (physicalToPrinted (some c) x) = x
    ∧ physicalToPrinted (some c) (printedToPhysical (some c) x) = x := by
  have hc : c ≠ 0 := by omega
  refine ⟨by simp [getPageOffset, hc], ?_, ?_⟩ <;>
    · simp only [printedToPhysical, physicalToPrinted, getPageOffset, hc, if_pos, ne_eq,
        not_false_iff, if_true]
      omega

/-- Witness for C1 at content-start page 5 and physical index 12. -/
theorem pageOffset_roundTrip_witness :
    getPageOffset (some 5) = -(5 - 1)
    ∧ printedToPhysical (some 5) (physicalToPrinted (some 5) 12) = 12
    ∧ physicalToPrinted (some 5) (printedToPhysical (some 5) 12) = 12 :=
  pageOffset_roundTrip 5 12 (by decide)

/-! ## Roman-to-Arabic conversion (src/app/api/extract-text/route.ts) -/

/-- The numeral table of romanToArabic; an unmapped character gives none,
the model of an undefined (falsy) lookup in the JavaScript object. -/
def romanValue (c : Char) : Option Int :=
  if c == 'i' then some 1
  else if c == 'v' then some 5
  else if c == 'x' then some 10
  else if c == 'l' then some 50
  else if c == 'c' then some 100
  else if c == 'd' then some 500
  else if c == 'm' then some 1000
  else none

/-- The loop body of romanToArabic: the character list is the input already
reversed (the JavaScript loop walks the string from its last index down to
0), result and prevValue are the two mutable variables. -/
def romanLoop : List Char → Int → Int → Option Int
  | [], result, _ => some result
  | c :: rest, result, prevValue =>
    match romanValue c.toLower with
    | none => none
    | some v => romanLoop rest (if v < prevValue then result - v else result + v) v

/-- Embeds romanToArabic of extract-text/route.ts. -/
def romanToArabic (roman : String) : Option Int :=
  romanLoop roman.data.reverse 0 0

/-- The subtractive value of a left-to-right list of digit values: a digit
is subtracted exactly when its value is strictly less than the value of the
digit immediately to its right, and added otherwise. -/
def subtractiveSum : List Int → Int
  | [] => 0
  | [v] => v
  | v :: w :: rest => (if v < w then -v else v) + subtractiveSum (w :: rest)

/-- The conversion the specification describes, word for word: scan
right-to-left, keep the running maximum value seen so far, subtract a digit
whose value is below that maximum and add it otherwise.  Defined only to be
compared against the source's romanToArabic. -/
def maxLoop : List Char → Int → Int → Option Int
  | [], result, _ => some result
  | c :: rest, result, maxSeen =>
    match romanValue c.toLower with
    | none => none
    | some v => maxLoop rest (if v < maxSeen then result - v else result + v) (max maxSeen v)

/-- The whole-string form of the specification's running-maximum
algorithm.  Defined only to be compared against the source's
romanToArabic. -/
def romanToArabicRunningMax (roman : String) : Option Int :=
  maxLoop roman.data.reverse 0 0

/-- Counterexample to claim C6 as stated: on the input vix (which the
page-number detector can really pass down, since it is made of the letters
i, v, x and is at most 4 long), the source's conversion yields 14 while
the running-maximum algorithm of the claim yields 4, so romanToArabic does
not implement the running-maximum rule. -/
theorem romanToArabic_runningMax_cex :
    romanToArabic (String.mk ['v', 'i', 'x']) = some 14
    ∧ romanToArabicRunningMax (String.mk ['v', 'i', 'x']) = some 4
    ∧ (14 : Int) ≠ 4 := by
  refine ⟨by decide, by decide, by decide⟩

/-- One step of the loop on already-mapped digit values. -/
def stepRA (st : Int × Int) (v : Int) : Int × Int :=
  (if v < st.2 then st.1 - v else st.1 + v, v)

theorem romanLoop_eq_foldl :
    ∀ (l : List Char) (r p : Int),
      romanLoop l r p =
        (seqOpt (l.map fun c => romanValue c.toLower)).map
          fun vs => (vs.foldl stepRA (r, p)).1 := by
  intro l
  induction l with
  | nil => intro r p; rfl
  | cons c rest ih =>
    intro r p
    simp only [romanLoop, List.map_cons]
    cases hv : romanValue c.toLower with
    | none => simp [seqOpt]
    | some v =>
      simp only [seqOpt, ih, Option.map_map]
      cases seqOpt (rest.map fun c => romanValue c.toLower) with
      | none => rfl
      | some vs =>
        simp [Function.comp, List.foldl_cons, stepRA]

theorem getLastO_cons :
    ∀ (ws : List α) (w : α), ∃ z, (w :: ws).getLast? = some z := by
  intro ws
  induction ws with
  | nil => intro w; exact ⟨w, rfl⟩
  | cons u us ih =>
    intro w
    rcases ih u with ⟨z, hz⟩
    exact ⟨z, by rw [List.getLast?_cons_cons]; exact hz⟩

theorem foldRA_snd :
    ∀ (l : List Int) (st : Int × Int),
      (l.foldl stepRA st).2 = l.getLast?.getD st.2 := by
  intro l
  induction l with
  | nil => intro st; rfl
  | cons v rest ih =>
    intro st
    rw [List.foldl_cons, ih]
    cases rest with
    | nil => simp [stepRA]
    | cons w ws =>
      rcases getLastO_cons ws w with ⟨z, hz⟩
      simp [List.getLast?_cons_cons, hz]

theorem foldRA_reverse_eq_subtractive :
    ∀ vs : List Int, (∀ v ∈ vs, 0 < v) →
      ((vs.reverse.foldl stepRA (0, 0)).1 = subtractiveSum vs) := by
  intro vs
  induction vs with
  | nil => intro _; rfl
  | cons v rest ih =>
    intro hpos
    have hv : 0 < v := hpos v (by simp)
    have hrest : ∀ w ∈ rest, 0 < w := fun w hw => hpos w (by simp [hw])
    rw [List.reverse_cons, List.foldl_append]
    have hsnd := foldRA_snd rest.reverse (0, 0)
    rw [List.getLast?_reverse] at hsnd
    cases rest with
    | nil =>
      simp only [List.reverse_nil, List.foldl_nil] at *
      simp [stepRA, subtractiveSum, show ¬(v < 0) by omega]
    | cons w ws =>
      have hr := ih hrest
      simp only [List.head?_cons, Option.getD_some] at hsnd
      simp only [List.foldl_cons, List.foldl_nil, stepRA, hsnd, hr, subtractiveSum]
      by_cases hvw : v < w <;> simp [hvw] <;> omega

theorem seqOpt_pos_of_romanValues :
    ∀ (l : List Char) (vs : List Int),
      seqOpt (l.map fun c => romanValue c.toLower) = some vs → ∀ v ∈ vs, 0 < v := by
  intro l
  induction l with
  | nil => intro vs h v hv; simp [seqOpt] at h; subst h; cases hv
  | cons c rest ih =>
    intro vs h v hv
    simp only [List.map_cons] at h
    cases hc : romanValue c.toLower with
    | none => rw [hc] at h; simp [seqOpt] at h
    | some w =>
      rw [hc] at h
      simp only [seqOpt] at h
      cases hrest : seqOpt (rest.map fun c => romanValue c.toLower) with
      | none => rw [hrest] at h; simp at h
      | some ws =>
        rw [hrest] at h
        have h2 : w :: ws = vs := by simpa using h
        subst h2
        rcases List.mem_cons.mp hv with rfl | hv2
        · revert hc
          unfold romanValue
          split_ifs <;> intro hc <;> simp_all <;> omega
        · exact ih ws hrest v hv2

theorem seqOpt_eq_none_iff :
    ∀ l : List (Option Int), seqOpt l = none ↔ none ∈ l := by
  intro l
  induction l with
  | nil => simp [seqOpt]
  | cons o rest ih =>
    cases o with
    | none => simp [seqOpt]
    | some v =>
      simp only [seqOpt, List.mem_cons]
      cases h : seqOpt rest with
      | none => simp [h, ih.mp h]
      | some vs => simp [h, ← ih]

theorem seqOpt_reverse :
    ∀ l : List (Option Int), seqOpt l.reverse = (seqOpt l).map List.reverse := by
  have happ : ∀ (a : List (Option Int)) (v : Int),
      seqOpt (a ++ [some v]) = (seqOpt a).map (· ++ [v]) := by
    intro a v
    induction a with
    | nil => rfl
    | cons o rest ih =>
      cases o with
      | none => rfl
      | some w =>
        rw [List.cons_append]
        show (seqOpt (rest ++ [some v])).map (w :: ·)
            = ((seqOpt rest).map (w :: ·)).map (· ++ [v])
        rw [ih]
        cases h : seqOpt rest <;> simp [h]
  intro l
  induction l with
  | nil => rfl
  | cons o rest ih =>
    cases o with
    | none =>
      rw [List.reverse_cons]
      have h1 : seqOpt (rest.reverse ++ [(none : Option Int)]) = none :=
        (seqOpt_eq_none_iff _).mpr (by simp)
      rw [h1]; rfl
    | some v =>
      rw [List.reverse_cons, happ, ih]
      show ((seqOpt rest).map List.reverse).map (· ++ [v])
          = ((seqOpt rest).map (v :: ·)).map List.reverse
      cases h : seqOpt rest <;> simp [h]

/-- Claim C6, amended: for every input string, romanToArabic returns none
exactly when some character cannot be mapped to a numeral value, and
otherwise returns the value of the subtractive algorithm that scans
right-to-left and subtracts a digit's value when it is strictly less than
the value of the digit processed just before it (the digit immediately to
its right), adding it otherwise.  (The claim as stated, with the running
maximum seen so far in place of the previous digit's value, is refuted by
romanToArabic_runningMax_cex.) -/
theorem romanToArabic_subtractive (s : String) :
    romanToArabic s
      = (seqOpt (s.data.map fun c => romanValue c.toLower)).map subtractiveSum
    ∧ (romanToArabic s = none ↔ none ∈ s.data.map fun c => romanValue c.toLower) := by
  have hmain : romanToArabic s
      = (seqOpt (s.data.map fun c => romanValue c.toLower)).map subtractiveSum := by
    unfold romanToArabic
    rw [romanLoop_eq_foldl, List.map_reverse, seqOpt_reverse]
    cases h : seqOpt (s.data.map fun c => romanValue c.toLower) with
    | none => rfl
    | some vs =>
      have hpos := seqOpt_pos_of_romanValues s.data vs h
      have hfold := foldRA_reverse_eq_subtractive vs hpos
      show some ((vs.reverse.foldl stepRA (0, 0)).1) = some (subtractiveSum vs)
      rw [hfold]
  refine ⟨hmain, ?_⟩
  rw [hmain, ← seqOpt_eq_none_iff]
  cases h : seqOpt (s.data.map fun c => romanValue c.toLower) <;> simp [h]

/-! ## Printed-page-number detection (extractPageNumber of extract-text/route.ts)

The regular expressions of extractPageNumber run in the JavaScript regex
engine, which is not code of this repository; each of them is abstracted
as the optional capture-group string it produces on the page text, so the
roman patterns give a list of optional candidates and the arabic patterns
another, and all theorems below hold for every possible list of
candidates.  The validation and conversion logic applied to each
candidate is translated from the source unchanged. -/


theorem romanLoop_pos :
    ∀ (l : List Char) (r p : Int),
      (∀ c ∈ l, c.toLower = 'i' ∨ c.toLower = 'v' ∨ c.toLower = 'x') →
      (p = 1 ∨ p = 5 ∨ p = 10) → p ≤ r →
      ∀ out, romanLoop l r p = some out → 1 ≤ out := by
  intro l
  induction l with
  | nil =>
    intro r p hall hp hpr out hout
    have hre : r = out := by simpa [romanLoop] using hout
    omega
  | cons c rest ih =>
    intro r p hall hp hpr out hout
    have hrest : ∀ d ∈ rest, d.toLower = 'i' ∨ d.toLower = 'v' ∨ d.toLower = 'x' :=
      fun d hd => hall d (List.mem_cons_of_mem c hd)
    have hc := hall c (List.mem_cons_self c rest)
    have hv : ∃ v : Int, romanValue c.toLower = some v ∧ (v = 1 ∨ v = 5 ∨ v = 10) := by
      rcases hc with h | h | h
      · exact ⟨1, by rw [h]; decide, Or.inl rfl⟩
      · exact ⟨5, by rw [h]; decide, Or.inr (Or.inl rfl)⟩
      · exact ⟨10, by rw [h]; decide, Or.inr (Or.inr rfl)⟩
    rcases hv with ⟨v, hveq, hvcases⟩
    simp only [romanLoop, hveq] at hout
    by_cases hlt : v < p
    · rw [if_pos hlt] at hout
      refine ih _ _ hrest hvcases ?_ out hout
      rcases hp with rfl | rfl | rfl <;> rcases hvcases with rfl | rfl | rfl <;> omega
    · rw [if_neg hlt] at hout
      refine ih _ _ hrest hvcases ?_ out hout
      rcases hp with rfl | rfl | rfl <;> rcases hvcases with rfl | rfl | rfl <;> omega

/-- The validation test of extractPageNumber on a roman candidate: the
JavaScript regular expression caret-bracket-i-v-x-bracket-plus-dollar,
true when the string is non-empty and made only of the letters i, v, x. -/
def isIVX (s : String) : Bool :=
  !s.data.isEmpty && s.data.all fun c => c == 'i' || c == 'v' || c == 'x'

theorem romanToArabic_pos (s : String) (hivx : isIVX s = true) :
    ∀ out, romanToArabic s = some out → 1 ≤ out := by
  intro out hout
  have hne : s.data ≠ [] := by
    intro hnil
    simp [isIVX, hnil] at hivx
  have hall : ∀ c ∈ s.data, c = 'i' ∨ c = 'v' ∨ c = 'x' := by
    intro c hcmem
    have h2 : s.data.all (fun c => c == 'i' || c == 'v' || c == 'x') = true := by
      have h3 := hivx
      unfold isIVX at h3
      exact ((Bool.and_eq_true _ _).mp h3).2
    have hb := (List.all_eq_true.mp h2) c hcmem
    have hb2 : (c = 'i' ∨ c = 'v') ∨ c = 'x' := by simpa using hb
    tauto
  unfold romanToArabic at hout
  cases hrev : s.data.reverse with
  | nil => exact absurd (by simpa using congrArg List.reverse hrev) hne
  | cons c t =>
    rw [hrev] at hout
    have hcmem : c ∈ s.data := by
      rw [← List.mem_reverse, hrev]; exact List.mem_cons_self c t
    have htmem : ∀ d ∈ t, d ∈ s.data := by
      intro d hd
      rw [← List.mem_reverse, hrev]
      exact List.mem_cons_of_mem c hd
    have hlow : ∀ d, d ∈ s.data → d.toLower = 'i' ∨ d.toLower = 'v' ∨ d.toLower = 'x' := by
      intro d hd
      rcases hall d hd with rfl | rfl | rfl
      · exact Or.inl (by decide)
      · exact Or.inr (Or.inl (by decide))
      · exact Or.inr (Or.inr (by decide))
    have hv : ∃ v : Int, romanValue c.toLower = some v ∧ (v = 1 ∨ v = 5 ∨ v = 10) := by
      rcases hlow c hcmem with h | h | h
      · exact ⟨1, by rw [h]; decide, Or.inl rfl⟩
      · exact ⟨5, by rw [h]; decide, Or.inr (Or.inl rfl)⟩
      · exact ⟨10, by rw [h]; decide, Or.inr (Or.inr rfl)⟩
    rcases hv with ⟨v, hveq, hvcases⟩
    simp only [romanLoop, hveq] at hout
    rw [if_neg (by omega : ¬v < 0)] at hout
    exact romanLoop_pos t (0 + v) v (fun d hd => hlow d (htmem d hd)) hvcases (by omega) out hout

/-- The result shape of extractPageNumber: a roman hit carries the
lowercased token and its converted magnitude, an arabic hit carries the
parsed number. -/
inductive PNum where
  | roman (value : String) (arabic : Int)
  | arabic (n : Int)
deriving DecidableEq

/-- The roman half of extractPageNumber: walk the roman patterns in order;
a candidate is accepted when it passes the i-v-x shape test, has length at
most 4, converts to a non-zero value (zero is falsy in JavaScript) of at
most 30; otherwise the scan continues with the next pattern. -/
def romanScan : List (Option String) → Option PNum
  | [] => none
  | none :: rest => romanScan rest
  | some cand :: rest =>
    if isIVX (lowerStr cand) = true ∧ (lowerStr cand).length ≤ 4 then
      match romanToArabic (lowerStr cand) with
      | some n => if n ≠ 0 ∧ n ≤ 30 then some (PNum.roman (lowerStr cand) n)
                  else romanScan rest
      | none => romanScan rest
    else romanScan rest

/-- The arabic half of extractPageNumber: walk the arabic patterns in
order; a candidate parses to a number that must be strictly between 0 and
2000, otherwise the scan continues. -/
def arabicScan : List (Option String) → Option PNum
  | [] => none
  | none :: rest => arabicScan rest
  | some cand :: rest =>
    match cand.toNat? with
    | some n => if 0 < n ∧ n < 2000 then some (PNum.arabic (n : Int)) else arabicScan rest
    | none => arabicScan rest

/-- Embeds extractPageNumber of extract-text/route.ts: roman patterns are
tried first and the first accepted candidate wins; only if no roman
candidate is accepted are the arabic patterns tried. -/
def extractPageNumber (romanCands arabicCands : List (Option String)) : Option PNum :=
  match romanScan romanCands with
  | some r => some r
  | none => arabicScan arabicCands

theorem romanScan_roman_bounds :
    ∀ cands v m, romanScan cands = some (PNum.roman v m) →
      v.length ≤ 4 ∧ 1 ≤ m ∧ m ≤ 30 := by
  intro cands
  induction cands with
  | nil => intro v m h; simp [romanScan] at h
  | cons c rest ih =>
    intro v m h
    cases c with
    | none => exact ih v m h
    | some cand =>
      simp only [romanScan] at h
      by_cases hok : isIVX (lowerStr cand) = true ∧ (lowerStr cand).length ≤ 4
      · rw [if_pos hok] at h
        cases hra : romanToArabic (lowerStr cand) with
        | none => rw [hra] at h; exact ih v m h
        | some n =>
          rw [hra] at h
          have h2 : (if n ≠ 0 ∧ n ≤ 30 then some (PNum.roman (lowerStr cand) n)
              else romanScan rest) = some (PNum.roman v m) := h
          by_cases hn : n ≠ 0 ∧ n ≤ 30
          · rw [if_pos hn] at h2
            have hv : lowerStr cand = v ∧ n = m := by
              injection h2 with h3
              injection h3 with h4 h5
              exact ⟨h4, h5⟩
            rcases hv with ⟨rfl, rfl⟩
            exact ⟨hok.2, romanToArabic_pos _ hok.1 n hra, hn.2⟩
          · rw [if_neg hn] at h2; exact ih v m h2
      · rw [if_neg hok] at h; exact ih v m h

theorem romanScan_ne_arabic :
    ∀ cands m, romanScan cands = some (PNum.arabic m) → False := by
  intro cands
  induction cands with
  | nil => intro m h; simp [romanScan] at h
  | cons c rest ih =>
    intro m h
    cases c with
    | none => exact ih m h
    | some cand =>
      simp only [romanScan] at h
      by_cases hok : isIVX (lowerStr cand) = true ∧ (lowerStr cand).length ≤ 4
      · rw [if_pos hok] at h
        cases hra : romanToArabic (lowerStr cand) with
        | none => rw [hra] at h; exact ih m h
        | some n =>
          rw [hra] at h
          have h2 : (if n ≠ 0 ∧ n ≤ 30 then some (PNum.roman (lowerStr cand) n)
              else romanScan rest) = some (PNum.arabic m) := h
          by_cases hn : n ≠ 0 ∧ n ≤ 30
          · rw [if_pos hn] at h2; cases h2
          · rw [if_neg hn] at h2; exact ih m h2
      · rw [if_neg hok] at h; exact ih m h

theorem arabicScan_arabic_bounds :
    ∀ cands m, arabicScan cands = some (PNum.arabic m) → 0 < m ∧ m < 2000 := by
  intro cands
  induction cands with
  | nil => intro m h; simp [arabicScan] at h
  | cons c rest ih =>
    intro m h
    cases c with
    | none => exact ih m h
    | some cand =>
      simp only [arabicScan] at h
      cases hn : cand.toNat? with
      | none => rw [hn] at h; exact ih m h
      | some n =>
        rw [hn] at h
        have h2 : (if 0 < n ∧ n < 2000 then some (PNum.arabic (n : Int))
            else arabicScan rest) = some (PNum.arabic m) := h
        by_cases hb : 0 < n ∧ n < 2000
        · rw [if_pos hb] at h2
          have hm : (n : Int) = m := by simpa using h2
          subst hm
          exact ⟨by exact_mod_cast hb.1, by exact_mod_cast hb.2⟩
        · rw [if_neg hb] at h2; exact ih m h2

theorem arabicScan_ne_roman :
    ∀ cands v m, arabicScan cands = some (PNum.roman v m) → False := by
  intro cands
  induction cands with
  | nil => intro v m h; simp [arabicScan] at h
  | cons c rest ih =>
    intro v m h
    cases c with
    | none => exact ih v m h
    | some cand =>
      simp only [arabicScan] at h
      cases hn : cand.toNat? with
      | none => rw [hn] at h; exact ih v m h
      | some n =>
        rw [hn] at h
        have h2 : (if 0 < n ∧ n < 2000 then some (PNum.arabic (n : Int))
            else arabicScan rest) = some (PNum.roman v m) := h
        by_cases hb : 0 < n ∧ n < 2000
        · rw [if_pos hb] at h2; cases h2
        · rw [if_neg hb] at h2; exact ih v m h2

/-- Claim C7: for every page text (abstracted as the candidate strings the
roman and arabic patterns may produce on it), a roman detection has token
length at most 4 and magnitude at most 30, and an arabic detection has
magnitude strictly between 0 and 2000; extractPageNumber never returns a
value outside these ranges. -/
theorem extractPageNumber_bounds (romanCands arabicCands : List (Option String)) :
    (∀ v m, extractPageNumber romanCands arabicCands = some (PNum.roman v m) →
      v.length ≤ 4 ∧ m ≤ 30)
    ∧ (∀ m, extractPageNumber romanCands arabicCands = some (PNum.arabic m) →
      0 < m ∧ m < 2000) := by
  unfold extractPageNumber
  cases hr : romanScan romanCands with
  | some r =>
    constructor
    · intro v m h
      have hrv : r = PNum.roman v m := by injection h
      subst hrv
      rcases romanScan_roman_bounds romanCands v m hr with ⟨h1, _, h3⟩
      exact ⟨h1, h3⟩
    · intro m h
      have hrv : r = PNum.arabic m := by injection h
      subst hrv
      exact absurd hr fun h2 => romanScan_ne_arabic romanCands m h2
  | none =>
    constructor
    · intro v m h
      exact absurd h fun h2 => arabicScan_ne_roman arabicCands v m h2
    · intro m h
      exact arabicScan_arabic_bounds arabicCands m h

/-- A strengthening of the roman half used by the sign-encoding claim: a
roman detection always has a strictly positive magnitude. -/
theorem extractPageNumber_roman_pos (romanCands arabicCands : List (Option String))
    (v : String) (m : Int)
    (h : extractPageNumber romanCands arabicCands = some (PNum.roman v m)) : 1 ≤ m := by
  unfold extractPageNumber at h
  cases hr : romanScan romanCands with
  | some r =>
    rw [hr] at h
    have hrv : r = PNum.roman v m := by injection h
    subst hrv
    exact (romanScan_roman_bounds romanCands v m hr).2.1
  | none =>
    rw [hr] at h
    exact absurd h fun h2 => arabicScan_ne_roman arabicCands v m h2

/-- Witness for C7: a concrete candidate list on which the detector
returns roman iv with magnitude 4, inside the claimed bounds. -/
theorem extractPageNumber_bounds_witness :
    extractPageNumber [some (String.mk ['i', 'v'])] [] = some (PNum.roman (String.mk ['i', 'v']) 4)
    ∧ (String.mk ['i', 'v']).length ≤ 4 ∧ (4 : Int) ≤ 30 := by
  refine ⟨by decide, ?_⟩
  exact (extractPageNumber_bounds [some (String.mk ['i', 'v'])] []).1 (String.mk ['i', 'v']) 4
    (by decide)

/-! ## Per-page analysis (analyzePage of extract-text/route.ts)

The category-signature scoring block of analyzePage (title, toc, preface
and main scores) is built entirely from regular-expression tests on the
page text, so it is abstracted as a function from the page text and
physical index to the association list of category scores in the
JavaScript object insertion order; the selection of the best category,
the blank short-circuit, the page-number extraction and the encoding of
the detected number are translated from the source unchanged and all
theorems quantify over every possible scoring function. -/

/-- The whitespace test used by the model of String.prototype.trim. -/
def isWS (c : Char) : Bool :=
  c == ' ' || c == '\t' || c == '\n' || c == '\r' || c == '\x0c'

/-- Model of the JavaScript trim: drop whitespace from both ends. -/
def trimStr (s : String) : String :=
  String.mk (((s.data.dropWhile isWS).reverse.dropWhile isWS).reverse)

/-- The abstraction of the regex-driven parts of the per-page analysis:
the candidate matches of the roman and arabic page-number patterns and
the category-score table computed by the signature block. -/
structure PatternEnv where
  romanCands : String → List (Option String)
  arabicCands : String → List (Option String)
  catScores : String → Nat → List (String × Int)

/-- The kind tag stored in pageNumberType. -/
inductive NKind where
  | roman
  | arabic
deriving DecidableEq

/-- The analysis record built by analyzePage, field for field. -/
structure Analysis where
  pageNumber : Nat
  type : String
  confidence : Int
  isMainContent : Bool
  hasPageNumber : Bool
  actualPageNumber : Option Int
  pageNumberType : Option NKind
  romanNumeral : Option String
  charCount : Nat
deriving DecidableEq

/-- The page-number fields of the analysis: a roman detection stores the
negated magnitude in actualPageNumber (negative marks roman), an arabic
detection stores the magnitude itself. -/
def pageNumFields : Option PNum → Bool × Option Int × Option NKind × Option String
  | none => (false, none, none, none)
  | some (PNum.roman v m) => (true, some (-m), some NKind.roman, some v)
  | some (PNum.arabic m) => (true, some m, some NKind.arabic, none)

/-- The tail of analyzePage: pick the category with the maximum score when
that maximum is at least 30 (first declared wins a tie), else stay
unknown; an unknown page past physical index 10 with more than 500
characters defaults to main with confidence 40. -/
def classifyFromScores (scores : List (String × Int)) (textLen : Nat) (pageNumber : Nat) :
    String × Int × Bool :=
  let maxScore : Option Int := scores.foldl (fun acc kv =>
    match acc with
    | none => some kv.2
    | some m2 => some (max m2 kv.2)) none
  let picked : String × Int × Bool :=
    match maxScore with
    | some m2 =>
      if 30 ≤ m2 then
        match scores.find? (fun kv => kv.2 == m2) with
        | some kv => (kv.1, kv.2, kv.1 == "main")
        | none => ("unknown", 0, false)
      else ("unknown", 0, false)
    | none => ("unknown", 0, false)
  if picked.1 == "unknown" && decide (10 < pageNumber) && decide (500 < textLen) then
    ("main", 40, true)
  else picked

/-- Embeds analyzePage of extract-text/route.ts over a pattern
environment: blank short-circuit first, then page-number extraction and
encoding, then category classification. -/
def analyzePage (env : PatternEnv) (pageText : String) (pageNumber : Nat) : Analysis :=
  if (trimStr pageText).length < 50 then
    { pageNumber := pageNumber, type := "blank", confidence := 0, isMainContent := false,
      hasPageNumber := false, actualPageNumber := none, pageNumberType := none,
      romanNumeral := none, charCount := pageText.length }
  else
    let f := pageNumFields (extractPageNumber (env.romanCands pageText) (env.arabicCands pageText))
    let c := classifyFromScores (env.catScores pageText pageNumber) pageText.length pageNumber
    { pageNumber := pageNumber, type := c.1, confidence := c.2.1, isMainContent := c.2.2,
      hasPageNumber := f.1, actualPageNumber := f.2.1, pageNumberType := f.2.2.1,
      romanNumeral := f.2.2.2, charCount := pageText.length }

/-- Claim C8: every page whose trimmed text is shorter than 50 characters
is classified blank immediately, with no page-number extraction and no
category scoring, whatever the page text and the signature scores are. -/
theorem analyzePage_blank_short_circuit (env : PatternEnv) (pageText : String)
    (pageNumber : Nat) (h : (trimStr pageText).length < 50) :
    analyzePage env pageText pageNumber =
      { pageNumber := pageNumber, type := "blank", confidence := 0, isMainContent := false,
        hasPageNumber := false, actualPageNumber := none, pageNumberType := none,
        romanNumeral := none, charCount := pageText.length } := by
  simp [analyzePage, h]

/-- A pattern environment with no matches and no scores, used by the
concrete witnesses. -/
def envEx : PatternEnv :=
  { romanCands := fun _ => [], arabicCands := fun _ => [], catScores := fun _ _ => [] }

/-- Witness for C8 on the two-character page text hi. -/
theorem analyzePage_blank_short_circuit_witness :
    analyzePage envEx (String.mk ['h', 'i']) 3 =
      { pageNumber := 3, type := "blank", confidence := 0, isMainContent := false,
        hasPageNumber := false, actualPageNumber := none, pageNumberType := none,
        romanNumeral := none, charCount := (String.mk ['h', 'i']).length } :=
  analyzePage_blank_short_circuit envEx (String.mk ['h', 'i']) 3 (by decide)

/-- Claim C10: in every analysis produced by analyzePage, the stored
actualPageNumber is strictly negative exactly when the detected kind is
roman (the negated magnitude is stored), strictly positive exactly when
the kind is arabic, and absent exactly when no printed number was
detected; in particular a roman detection can never present the value 1
that the content-start resolver's first method tests for. -/
theorem analyzePage_sign_encoding (env : PatternEnv) (pageText : String) (pageNumber : Nat) :
    ((analyzePage env pageText pageNumber).pageNumberType = some NKind.roman ↔
      ∃ m, (analyzePage env pageText pageNumber).actualPageNumber = some m ∧ m < 0)
    ∧ ((analyzePage env pageText pageNumber).pageNumberType = some NKind.arabic ↔
      ∃ m, (analyzePage env pageText pageNumber).actualPageNumber = some m ∧ 0 < m)
    ∧ ((analyzePage env pageText pageNumber).pageNumberType = none ↔
      (analyzePage env pageText pageNumber).actualPageNumber = none)
    ∧ ((analyzePage env pageText pageNumber).pageNumberType = some NKind.roman →
      (analyzePage env pageText pageNumber).actualPageNumber ≠ some 1) := by
  by_cases ht : (trimStr pageText).length < 50
  · simp [analyzePage, ht]
  · cases hpn : extractPageNumber (env.romanCands pageText) (env.arabicCands pageText) with
    | none => simp [analyzePage, ht, hpn, pageNumFields]
    | some pn =>
      cases pn with
      | roman v m =>
        have hpos := extractPageNumber_roman_pos _ _ v m hpn
        simp only [analyzePage, ht, if_neg, hpn, pageNumFields]
        refine ⟨⟨fun _ => ⟨-m, rfl, by omega⟩, fun _ => rfl⟩, ?_, ?_, ?_⟩
        · constructor
          · intro hco; cases hco
          · rintro ⟨m2, hm2, hm2pos⟩
            have : -m = m2 := by simpa using hm2
            omega
        · constructor
          · intro hco; cases hco
          · intro hco; cases hco
        · intro _ hco
          have : -m = 1 := by simpa using hco
          omega
      | arabic m =>
        have hb := (extractPageNumber_bounds (env.romanCands pageText)
          (env.arabicCands pageText)).2 m hpn
        simp only [analyzePage, ht, if_neg, hpn, pageNumFields]
        refine ⟨?_, ⟨fun _ => ⟨m, rfl, hb.1⟩, fun _ => rfl⟩, ?_, ?_⟩
        · constructor
          · intro hco; cases hco
          · rintro ⟨m2, hm2, hm2neg⟩
            have : m = m2 := by simpa using hm2
            omega
        · constructor
          · intro hco; cases hco
          · intro hco; cases hco
        · intro hco; cases hco

/-! ## TOC extraction (extractTOC of extract-text/route.ts)

The five line-shape regular expressions of extractTOC run in the
JavaScript regex engine; each is abstracted as a function from the
trimmed line to the optional entry its capture groups assemble, and the
theorems quantify over every list of such line patterns.  The
line-by-line loop, the skip conditions and the final bounds filter are
translated from the source unchanged. -/

/-- Split a character list at every occurrence of a separator, the model
of the JavaScript split with a one-character separator. -/
def splitOnChar (sep : Char) : List Char → List (List Char)
  | [] => [[]]
  | c :: rest =>
    if c == sep then [] :: splitOnChar sep rest
    else
      match splitOnChar sep rest with
      | [] => [[c]]
      | h :: t => (c :: h) :: t

/-- The lines of a text, split at newline characters. -/
def splitLines (s : String) : List String :=
  (splitOnChar '\n' s.data).map String.mk

/-- One structured TOC entry; the source's field named section is renamed
sectionLabel because section is a reserved word here. -/
structure TocEntry where
  sectionLabel : Option String
  title : String
  page : Int
deriving DecidableEq

/-- The skip test of the extractTOC loop: a line is skipped when its
trimmed form is empty (falsy in JavaScript) or its raw length is below
3. -/
def tocLineSkip (line : String) : Bool :=
  trimStr line == String.mk [] || decide (line.length < 3)

/-- Try the line patterns in order on a trimmed line; the first one that
matches wins and no further pattern is tried for that line. -/
def tryPats : List (String → Option TocEntry) → String → Option TocEntry
  | [], _ => none
  | f :: rest, s =>
    match f s with
    | some e => some e
    | none => tryPats rest s

/-- The line loop of extractTOC: skipped lines and lines matching no
pattern contribute nothing, every other line contributes the entry of its
first matching pattern. -/
def tocEntriesOfLines (patterns : List (String → Option TocEntry)) :
    List String → List TocEntry
  | [] => []
  | line :: rest =>
    if tocLineSkip line = true then tocEntriesOfLines patterns rest
    else
      match tryPats patterns (trimStr line) with
      | some e => e :: tocEntriesOfLines patterns rest
      | none => tocEntriesOfLines patterns rest

/-- Embeds extractTOC of extract-text/route.ts: run the line loop over
the lines of the TOC text, then drop every entry whose page is not
strictly between 0 and 500 or whose title has fewer than 3 characters. -/
def extractTOC (patterns : List (String → Option TocEntry)) (tocText : String) :
    List TocEntry :=
  (tocEntriesOfLines patterns (splitLines tocText)).filter fun e =>
    decide (0 < e.page) && decide (e.page < 500) && decide (2 < e.title.length)

/-- Claim C9: every entry extractTOC returns has page strictly between 0
and 500 and a title longer than 2 characters, whatever entries the line
patterns produce; and a line that is skipped or matches no pattern
contributes nothing while the remaining lines are still processed. -/
theorem extractTOC_filters (patterns : List (String → Option TocEntry)) (tocText : String)
    (pre post : List String) (l : String) :
    (∀ e ∈ extractTOC patterns tocText, 0 < e.page ∧ e.page < 500 ∧ 2 < e.title.length)
    ∧ ((tocLineSkip l = true ∨ tryPats patterns (trimStr l) = none) →
      tocEntriesOfLines patterns (pre ++ l :: post) = tocEntriesOfLines patterns (pre ++ post)) := by
  constructor
  · intro e he
    rcases List.mem_filter.mp he with ⟨_, hb⟩
    have hb2 : (0 < e.page ∧ e.page < 500) ∧ 2 < e.title.length := by simpa using hb
    exact ⟨hb2.1.1, hb2.1.2, hb2.2⟩
  · intro hskip
    induction pre with
    | nil =>
      simp only [List.nil_append]
      by_cases hl : tocLineSkip l = true
      · simp [tocEntriesOfLines, hl]
      · rcases hskip with hs | hs
        · exact absurd hs hl
        · simp [tocEntriesOfLines, hl, hs]
    | cons a pre2 ih =>
      by_cases ha : tocLineSkip a = true
      · simp only [List.cons_append, tocEntriesOfLines, if_pos ha]
        exact ih
      · cases hpa : tryPats patterns (trimStr a) with
        | some e =>
          simp only [List.cons_append, tocEntriesOfLines, if_neg ha, hpa]
          exact congrArg (fun x => e :: x) ih
        | none =>
          simp only [List.cons_append, tocEntriesOfLines, if_neg ha, hpa]
          exact ih

/-- The one concrete line pattern used by the C9 witness. -/
def pats9 : List (String → Option TocEntry) :=
  [fun s => if s == "Intro 23" then some { sectionLabel := none, title := "Intro", page := 23 }
            else none]

/-- Witness for C9: the two-character line zz is skipped and the lines
around it are still parsed. -/
theorem extractTOC_filters_witness :
    tocEntriesOfLines pats9 (["Intro 23"] ++ ("zz") :: ["Intro 23"])
      = tocEntriesOfLines pats9 (["Intro 23"] ++ ["Intro 23"]) :=
  (extractTOC_filters pats9 ("") ["Intro 23"] ["Intro 23"] ("zz")).2 (Or.inl (by decide))

/-! ## Content-start resolution (the POST handler of extract-text/route.ts)

The handler builds one record per physical page (pageNumber equal to the
position in the page sequence plus 1) and resolves contentStartsAt by four
methods in order.  The embedding keeps the physical index implicit as the
list position, exactly as the construction guarantees. -/

/-- The per-page fields the resolver reads from each pageTexts record. -/
structure PageInfo where
  pageNumberType : Option NKind
  actualPageNumber : Option Int
  isMainContent : Bool
  type : String
  charCount : Nat
deriving DecidableEq

/-- The method-1 test: the record has actualPageNumber 1 and arabic
kind. -/
def isArabicOne (p : PageInfo) : Bool :=
  p.actualPageNumber == some 1 && p.pageNumberType == some NKind.arabic

/-- Whether the record's detected number is roman. -/
def isRomanT (p : PageInfo) : Bool := p.pageNumberType == some NKind.roman

/-- Whether the record's detected number is arabic. -/
def isArabicT (p : PageInfo) : Bool := p.pageNumberType == some NKind.arabic

/-- The method-2 loop of the resolver: one pass recording the index of the
last roman-numbered page and the index of the first arabic-numbered page,
both starting at the sentinel -1. -/
def scanRA : Int → Int × Int → List PageInfo → Int × Int
  | _, acc, [] => acc
  | i, acc, p :: rest =>
    scanRA (i + 1)
      (if isRomanT p = true then (i, acc.2)
       else if isArabicT p = true ∧ acc.2 = -1 then (acc.1, i)
       else acc) rest

/-- The last-roman projection of the method-2 loop. -/
def lastRomanAux : Int → Int → List PageInfo → Int
  | _, lr, [] => lr
  | i, lr, p :: rest => lastRomanAux (i + 1) (if isRomanT p = true then i else lr) rest

/-- The first-arabic projection of the method-2 loop. -/
def firstArabicAux : Int → Int → List PageInfo → Int
  | _, fa, [] => fa
  | i, fa, p :: rest =>
    firstArabicAux (i + 1) (if isArabicT p = true ∧ fa = -1 then i else fa) rest

/-- Embeds the contentStartsAt resolution of the POST handler: method 1
returns the physical index of the first record passing the arabic-1 test;
method 2 returns the physical index of the first arabic page when the
last roman index is non-negative and strictly below it; method 3 returns
the first record flagged isMainContent; method 4 returns the first record
that is none of title, toc, preface, blank and has more than 500
characters; the default is physical page 1. -/
def contentStartsAt (pageTexts : List PageInfo) : Nat :=
  match findIdxO isArabicOne pageTexts with
  | some i => i + 1
  | none =>
    let s := scanRA 0 (-1, -1) pageTexts
    if 0 ≤ s.1 ∧ s.1 < s.2 then s.2.toNat + 1
    else
      match findIdxO (fun p => p.isMainContent) pageTexts with
      | some i => i + 1
      | none =>
        match findIdxO (fun p =>
            p.type != "title" && p.type != "toc" && p.type != "preface"
            && p.type != "blank" && decide (500 < p.charCount)) pageTexts with
        | some i => i + 1
        | none => 1

theorem scanRA_proj :
    ∀ (l : List PageInfo) (i lr fa : Int),
      scanRA i (lr, fa) l = (lastRomanAux i lr l, firstArabicAux i fa l) := by
  intro l
  induction l with
  | nil => intro i lr fa; rfl
  | cons p rest ih =>
    intro i lr fa
    rcases hp : p.pageNumberType with _ | k
    · have hr : isRomanT p = false := by simp [isRomanT, hp]
      have ha2 : isArabicT p = false := by simp [isArabicT, hp]
      simp only [scanRA, lastRomanAux, firstArabicAux, hr, ha2]
      simpa using ih (i + 1) lr fa
    · cases k with
      | roman =>
        have hr : isRomanT p = true := by simp [isRomanT, hp]
        have ha2 : isArabicT p = false := by simp [isArabicT, hp]
        simp only [scanRA, lastRomanAux, firstArabicAux, hr, ha2]
        simpa using ih (i + 1) i fa
      | arabic =>
        have hr : isRomanT p = false := by simp [isRomanT, hp]
        have ha2 : isArabicT p = true := by simp [isArabicT, hp]
        by_cases hfa : fa = -1
        · simp only [scanRA, lastRomanAux, firstArabicAux, hr, ha2, hfa]
          simpa using ih (i + 1) lr i
        · simp only [scanRA, lastRomanAux, firstArabicAux, hr, ha2, hfa]
          simpa [hfa] using ih (i + 1) lr fa

theorem firstArabicAux_stuck :
    ∀ (l : List PageInfo) (i fa : Int), fa ≠ -1 → firstArabicAux i fa l = fa := by
  intro l
  induction l with
  | nil => intro i fa _; rfl
  | cons p rest ih =>
    intro i fa hfa
    simp only [firstArabicAux, hfa]
    simpa [hfa] using ih (i + 1) fa hfa

theorem firstArabicAux_found :
    ∀ (l : List PageInfo) (F : Nat) (i : Int), 0 ≤ i →
      findIdxO isArabicT l = some F → firstArabicAux i (-1) l = i + F := by
  intro l
  induction l with
  | nil => intro F i _ hF; simp [findIdxO] at hF
  | cons p rest ih =>
    intro F i hi hF
    by_cases hp : isArabicT p = true
    · simp [findIdxO, hp] at hF
      subst hF
      simp only [firstArabicAux, hp, and_true, if_pos]
      rw [firstArabicAux_stuck rest (i + 1) i (by omega)]
      omega
    · simp [findIdxO, hp] at hF
      rcases hF with ⟨F0, hF0, rfl⟩
      simp only [firstArabicAux, hp]
      rw [if_neg (by simp [hp])]
      rw [ih F0 (i + 1) (by omega) hF0]
      push_cast
      omega

theorem lastRomanAux_none :
    ∀ (l : List PageInfo) (i lr : Int), (∀ q ∈ l, isRomanT q = false) →
      lastRomanAux i lr l = lr := by
  intro l
  induction l with
  | nil => intro i lr _; rfl
  | cons p rest ih =>
    intro i lr hall
    have hp := hall p (by simp)
    simp only [lastRomanAux, hp]
    simpa using ih (i + 1) lr fun q hq => hall q (by simp [hq])

theorem lastRomanAux_found :
    ∀ (l : List PageInfo) (L : Nat) (i lr : Int),
      (∃ p, l.get? L = some p ∧ isRomanT p = true) →
      (∀ j, L < j → ∀ q, l.get? j = some q → isRomanT q = false) →
      lastRomanAux i lr l = i + L := by
  intro l
  induction l with
  | nil =>
    intro L i lr hL _
    rcases hL with ⟨p, hp, _⟩
    simp at hp
  | cons p rest ih =>
    intro L i lr hL hafter
    cases L with
    | zero =>
      rcases hL with ⟨q, hq, hqr⟩
      have hpq : p = q := by simpa using hq
      subst hpq
      simp only [lastRomanAux, hqr, if_pos]
      rw [lastRomanAux_none rest (i + 1) i ?_]
      · omega
      · intro q2 hq2
        rcases List.mem_iff_get?.mp hq2 with ⟨n, hn⟩
        exact hafter (n + 1) (by omega) q2 (by simpa using hn)
    | succ L0 =>
      rcases hL with ⟨q, hq, hqr⟩
      simp only [lastRomanAux]
      rw [ih L0 (i + 1) _ ⟨q, by simpa using hq, hqr⟩ ?_]
      · push_cast
        omega
      · intro j hj q2 hq2
        exact hafter (j + 1) (by omega) q2 (by simpa using hq2)

/-- Claim C2: whenever some record passes the arabic-1 test, the resolver
returns the physical index (position plus 1) of the first such record:
the first arabic page printed 1 wins no matter what is classified main
earlier, and no later method is consulted. -/
theorem contentStartsAt_arabic_one (pages : List PageInfo)
    (h : ∃ p ∈ pages, isArabicOne p = true) :
    ∃ k p, findIdxO isArabicOne pages = some k
      ∧ contentStartsAt pages = k + 1
      ∧ pages.get? k = some p ∧ isArabicOne p = true
      ∧ ∀ j, j < k → ∀ q, pages.get? j = some q → isArabicOne q = false := by
  rcases findIdxO_of_mem h with ⟨k, hk⟩
  rcases findIdxO_get hk with ⟨p, hgp, hfp⟩
  exact ⟨k, p, hk, by simp [contentStartsAt, hk], hgp, hfp, findIdxO_min hk⟩

/-- A main-classified page with no detected number, for the witnesses. -/
def pgMain : PageInfo :=
  { pageNumberType := none, actualPageNumber := none, isMainContent := true,
    type := "main", charCount := 600 }

/-- A page whose detected printed number is arabic 1. -/
def pgArabic1 : PageInfo :=
  { pageNumberType := some NKind.arabic, actualPageNumber := some 1, isMainContent := false,
    type := "unknown", charCount := 600 }

/-- A page whose detected printed number is arabic 7. -/
def pgArabic7 : PageInfo :=
  { pageNumberType := some NKind.arabic, actualPageNumber := some 7, isMainContent := false,
    type := "unknown", charCount := 60 }

/-- A page whose detected printed number is roman iv (stored as -4). -/
def pgRoman4 : PageInfo :=
  { pageNumberType := some NKind.roman, actualPageNumber := some (-4), isMainContent := false,
    type := "unknown", charCount := 60 }

/-- A page whose detected printed number is arabic 9. -/
def pgArabic9 : PageInfo :=
  { pageNumberType := some NKind.arabic, actualPageNumber := some 9, isMainContent := false,
    type := "unknown", charCount := 60 }

/-- Witness for C2: an earlier main-classified page does not stop the
arabic-1 page at position 2 from being returned. -/
theorem contentStartsAt_arabic_one_witness :
    contentStartsAt [pgMain, pgArabic1] = 2 := by
  obtain ⟨k, p, hk, hc, _, _, _⟩ :=
    contentStartsAt_arabic_one [pgMain, pgArabic1] ⟨pgArabic1, by decide, by decide⟩
  have h1 : findIdxO isArabicOne [pgMain, pgArabic1] = some 1 := by decide
  rw [hk] at h1
  have h2 : k = 1 := by simpa using h1
  subst h2
  simpa using hc

/-- Counterexample to claim C3 as stated: in the page list arabic-7,
roman-iv, arabic-9 no page bears arabic 1, a roman page exists, and the
page after the last roman page bears an arabic number (so the claim
requires the resolver to return that page's physical index 3), yet the
resolver returns 1: the code compares the first arabic index overall
(here 0) against the last roman index (here 1), the test fails, methods 3
and 4 find nothing and the default 1 is returned. -/
theorem contentStartsAt_roman_transition_cex :
    (∀ p ∈ [pgArabic7, pgRoman4, pgArabic9], isArabicOne p = false)
    ∧ [pgArabic7, pgRoman4, pgArabic9].map isRomanT = [false, true, false]
    ∧ [pgArabic7, pgRoman4, pgArabic9].map isArabicT = [true, false, true]
    ∧ contentStartsAt [pgArabic7, pgRoman4, pgArabic9] = 1
    ∧ (1 : Nat) ≠ 3 := by decide

/-- Claim C3, amended: if no page passes the arabic-1 test, some page
bears a roman number, and the first arabic-numbered page (by physical
index, over the whole document) lies strictly after the last
roman-numbered page, then the resolver returns the physical index of that
first arabic page.  (The claim as stated, which only requires some arabic
page after the last roman page and picks the first arabic page after it,
is refuted by contentStartsAt_roman_transition_cex: the code compares the
first arabic page overall against the last roman page.) -/
theorem contentStartsAt_roman_transition_amended (pages : List PageInfo) (L F : Nat)
    (hno1 : ∀ p ∈ pages, isArabicOne p = false)
    (hF : findIdxO isArabicT pages = some F)
    (hL : ∃ p, pages.get? L = some p ∧ isRomanT p = true)
    (hLlast : ∀ j, L < j → ∀ q, pages.get? j = some q → isRomanT q = false)
    (hLF : L < F) :
    contentStartsAt pages = F + 1 := by
  have h1 : findIdxO isArabicOne pages = none := findIdxO_eq_none hno1
  have hscan : scanRA 0 (-1, -1) pages = ((L : Int), (F : Int)) := by
    rw [scanRA_proj]
    rw [lastRomanAux_found pages L 0 (-1) hL hLlast]
    rw [firstArabicAux_found pages F 0 (by omega) hF]
    simp
  simp only [contentStartsAt, h1, hscan]
  rw [if_pos ⟨by omega, by exact_mod_cast hLF⟩]
  omega

/-- Witness for the amended C3: roman at position 1, arabic at position 2,
so the resolver returns 2. -/
theorem contentStartsAt_roman_transition_amended_witness :
    contentStartsAt [pgRoman4, pgArabic7] = 2 := by
  apply contentStartsAt_roman_transition_amended [pgRoman4, pgArabic7] 0 1
  · decide
  · decide
  · exact ⟨pgRoman4, by decide, by decide⟩
  · intro j hj q hq
    match j, hj with
    | 1, _ =>
      have h2 : some pgArabic7 = some q := hq
      have h3 : pgArabic7 = q := by simpa using h2
      subst h3
      decide
    | (n + 2), _ =>
      have h2 : (none : Option PageInfo) = some q := hq
      cases h2
  · omega

/-! ## Multi-stage search (the search_pdf handler of BeaconRealtimeVoice.js)

The handler queries the pages table through ilike (modelled above as
case-insensitive substring containment) with the rows restricted to the
document, to is_content pages, ordered by page number ascending and
limited; the store is the page table as a list of rows. -/

/-- The document fields the search reads. -/
structure Doc where
  id : Nat
  content_starts_at_page : Int
deriving DecidableEq

/-- One row of the pages table as the search selects it. -/
structure PageRec where
  document_id : Nat
  pdf_page_number : Nat
  content : String
  is_content : Bool
deriving DecidableEq

/-- One search result as the handler assembles it; score is present only
on word-overlap results, exactly as in the source. -/
structure SearchResult where
  document_id : Nat
  pdf_page_number : Nat
  content : String
  content_offset : Int
  score : Option Int
deriving DecidableEq

/-- Attach the document data to a row: content_offset is the document's
content_starts_at_page with the JavaScript or-1 fallback for a falsy
value. -/
def toResult (d : Doc) (sc : Option Int) (p : PageRec) : SearchResult :=
  { document_id := p.document_id, pdf_page_number := p.pdf_page_number,
    content := p.content,
    content_offset := if d.content_starts_at_page ≠ 0 then d.content_starts_at_page else 1,
    score := sc }

/-- The per-document page query every stage issues: rows of the document
that are content pages and whose content contains the pattern
case-insensitively, ordered by page number ascending, limited. -/
def queryPages (store : List PageRec) (docId : Nat) (pat : String) (lim : Nat) :
    List PageRec :=
  (sortAscBy (fun p => p.pdf_page_number)
    (store.filter fun p => p.document_id == docId && p.is_content && ilike p.content pat)).take
    lim

/-- Stage 1, the exact-phrase search: per document, up to 3 content pages
containing the whole query, in page order. -/
def stage1 (store : List PageRec) (docs : List Doc) (q : String) : List SearchResult :=
  docs.flatMap fun d => (queryPages store d.id q 3).map (toResult d none)

/-- The token split of stages 2 and 3: split the query at spaces and keep
the tokens longer than 2 characters. -/
def splitWords (q : String) : List String :=
  ((splitOnChar ' ' q.data).map String.mk).filter fun w => decide (2 < w.length)

/-- The inner loop of the word-overlap scoring: the number of query
tokens (counted with multiplicity, as the source iterates the token
array) contained case-insensitively in the page content. -/
def cntWords (words : List String) (content : String) : Int :=
  ((words.filter fun w => ilike content w).length : Int)

/-- Add a delta to the score stored under a key of the score table. -/
def bumpScore (key : Nat) (delta : Int) :
    List (Nat × SearchResult) → List (Nat × SearchResult)
  | [] => []
  | (k, r) :: t =>
    if k == key then (k, { r with score := some (r.score.getD 0 + delta) }) :: t
    else (k, r) :: bumpScore key delta t

/-- Whether the score table already has an entry under a key. -/
def hasKey (key : Nat) : List (Nat × SearchResult) → Bool
  | [] => false
  | (k, _) :: t => k == key || hasKey key t

/-- The deduplicate-and-score loop of stage 2, one step per retrieved row
occurrence: a first occurrence of a page inserts an entry with score 0,
and every occurrence (first or duplicate) adds the full count of
contained query tokens to that page's score, exactly as the source's
nested forEach does. -/
def scoreFold (d : Doc) (words : List String) :
    List (Nat × SearchResult) → List PageRec → List (Nat × SearchResult)
  | acc, [] => acc
  | acc, r :: rest =>
    scoreFold d words
      (bumpScore r.pdf_page_number (cntWords words r.content)
        (if hasKey r.pdf_page_number acc then acc
         else acc ++ [(r.pdf_page_number, toResult d (some 0) r)]))
      rest

/-- Stage 2 for one document: query up to 2 content pages per token,
concatenate the retrieved rows, run the scoring loop, sort the scored
entries by descending score and keep the top 2. -/
def stage2Doc (store : List PageRec) (words : List String) (d : Doc) : List SearchResult :=
  (sortDescBy (fun r => r.score.getD 0)
    ((scoreFold d words []
      (words.flatMap fun w => queryPages store d.id w 2)).map Prod.snd)).take 2

/-- Stage 2, the word-overlap search across the documents; nothing
happens when no token is longer than 2 characters. -/
def stage2 (store : List PageRec) (docs : List Doc) (q : String) : List SearchResult :=
  if (splitWords q).isEmpty then []
  else docs.flatMap (stage2Doc store (splitWords q))

/-- Stage 3, the partial search: take the longest token (first of the
stable descending-length sort, as the JavaScript sort-then-index does),
cut up to 2 trailing characters but keep at least 4, and query up to 2
content pages per document for the stem. -/
def stage3 (store : List PageRec) (docs : List Doc) (q : String) : List SearchResult :=
  match (sortDescBy (fun w : String => (w.length : Int)) (splitWords q)).head? with
  | none => []
  | some mainWord =>
    docs.flatMap fun d =>
      (queryPages store d.id
        (String.mk (mainWord.data.take (max 4 (mainWord.length - 2)))) 2).map
        (toResult d none)

/-- The label of the stage that produced the final result set. -/
inductive Method where
  | exact
  | wordBased
  | partialMatch
  | nomatch
deriving DecidableEq

/-- The sort key of the final word-based ordering: a missing score counts
as 0, the model of the JavaScript score-or-0 comparator. -/
def scoreKey (r : SearchResult) : Int := r.score.getD 0

/-- Embeds the search_pdf handler: stage 1 first; stage 2 only when
stage 1 collected nothing over all documents; stage 3 only when stage 2
also collected nothing; word-based results are re-sorted globally by
descending score; the final result list is capped at 5. -/
def searchPdf (store : List PageRec) (docs : List Doc) (q : String) :
    List SearchResult × Method :=
  if (stage1 store docs q).isEmpty then
    if (stage2 store docs q).isEmpty then
      if (stage3 store docs q).isEmpty then ([], Method.nomatch)
      else ((stage3 store docs q).take 5, Method.partialMatch)
    else ((sortDescBy scoreKey (stage2 store docs q)).take 5, Method.wordBased)
  else ((stage1 store docs q).take 5, Method.exact)

theorem bind_ne_nil (l : List α) (f : α → List β) (a : α) :
    a ∈ l → f a ≠ [] → l.flatMap f ≠ [] := by
  induction l with
  | nil => intro ha _; cases ha
  | cons x xs ih =>
    intro ha hf hnil
    rw [List.flatMap_cons] at hnil
    rcases List.append_eq_nil.mp hnil with ⟨h1, h2⟩
    rcases List.mem_cons.mp ha with rfl | ha2
    · exact hf h1
    · exact ih ha2 hf h2

theorem queryPages_ne_nil (store : List PageRec) (d : Doc) (pat : String) (p : PageRec)
    (hp : p ∈ store) (hdoc : p.document_id = d.id) (hcont : p.is_content = true)
    (hil : ilike p.content pat = true) (lim : Nat) (hlim : 0 < lim) :
    queryPages store d.id pat lim ≠ [] := by
  have hmemf : p ∈ store.filter
      (fun p => p.document_id == d.id && p.is_content && ilike p.content pat) :=
    List.mem_filter.mpr ⟨hp, by simp [hdoc, hcont, hil]⟩
  have hflt : store.filter
      (fun p => p.document_id == d.id && p.is_content && ilike p.content pat) ≠ [] :=
    List.ne_nil_of_mem hmemf
  have hlen := length_sortAscBy (fun p : PageRec => p.pdf_page_number)
    (store.filter fun p => p.document_id == d.id && p.is_content && ilike p.content pat)
  intro hnil
  apply hflt
  unfold queryPages at hnil
  have h0 : (sortAscBy (fun p : PageRec => p.pdf_page_number)
      (store.filter fun p =>
        p.document_id == d.id && p.is_content && ilike p.content pat)).length = 0 := by
    by_contra hne
    cases hs : sortAscBy (fun p : PageRec => p.pdf_page_number)
        (store.filter fun p =>
          p.document_id == d.id && p.is_content && ilike p.content pat) with
    | nil => rw [hs] at hne; simp at hne
    | cons a t =>
      rw [hs] at hnil
      cases lim with
      | zero => omega
      | succ n => simp [List.take] at hnil
  rw [hlen] at h0
  exact List.length_eq_zero.mp h0

theorem searchPdf_stage1_ne (store : List PageRec) (docs : List Doc) (q : String)
    (h : stage1 store docs q ≠ []) :
    searchPdf store docs q = ((stage1 store docs q).take 5, Method.exact) := by
  have hb : (stage1 store docs q).isEmpty = false := by
    cases hl : stage1 store docs q with
    | nil => exact absurd hl h
    | cons a t => rfl
  simp [searchPdf, hb]

theorem searchPdf_stage2_ne (store : List PageRec) (docs : List Doc) (q : String)
    (h1 : stage1 store docs q = []) (h2 : stage2 store docs q ≠ []) :
    searchPdf store docs q
      = ((sortDescBy scoreKey (stage2 store docs q)).take 5, Method.wordBased) := by
  have hb2 : (stage2 store docs q).isEmpty = false := by
    cases hl : stage2 store docs q with
    | nil => exact absurd hl h2
    | cons a t => rfl
  simp [searchPdf, h1, hb2]

/-- Claim C4: the word-overlap stage is consulted only when the
exact-phrase stage collects nothing across all candidate documents, and
the partial stage only when the word-overlap stage also collects nothing;
whenever the full query occurs case-insensitively on a searchable
(is_content) page of a candidate document, the produced result set is the
stage-1 set and its label is exact, so stages 2 and 3 are never
reached. -/
theorem searchPdf_stage_precedence (store : List PageRec) (docs : List Doc) (q : String)
    (hdocs : docs ≠ []) :
    ((∃ d ∈ docs, ∃ p ∈ store, p.document_id = d.id ∧ p.is_content = true
        ∧ ilike p.content q = true) →
      (searchPdf store docs q).2 = Method.exact
      ∧ (searchPdf store docs q).1 = (stage1 store docs q).take 5
      ∧ stage1 store docs q ≠ [])
    ∧ ((searchPdf store docs q).2 = Method.wordBased → stage1 store docs q = [])
    ∧ ((searchPdf store docs q).2 = Method.partialMatch →
      stage1 store docs q = [] ∧ stage2 store docs q = []) := by
  refine ⟨?_, ?_, ?_⟩
  · rintro ⟨d, hd, p, hp, hdoc, hcont, hil⟩
    have hq3 := queryPages_ne_nil store d q p hp hdoc hcont hil 3 (by omega)
    have hmap : (queryPages store d.id q 3).map (toResult d none) ≠ [] := by
      intro hnil
      exact hq3 (List.map_eq_nil_iff.mp hnil)
    have hs1 : stage1 store docs q ≠ [] :=
      bind_ne_nil docs (fun d => (queryPages store d.id q 3).map (toResult d none)) d hd hmap
    rw [searchPdf_stage1_ne store docs q hs1]
    exact ⟨rfl, rfl, hs1⟩
  · intro hm
    by_contra hne
    rw [searchPdf_stage1_ne store docs q hne] at hm
    cases hm
  · intro hm
    have hs1 : stage1 store docs q = [] := by
      by_contra hne
      rw [searchPdf_stage1_ne store docs q hne] at hm
      cases hm
    refine ⟨hs1, ?_⟩
    by_contra hne2
    rw [searchPdf_stage2_ne store docs q hs1 hne2] at hm
    cases hm

/-- The concrete document of the search witnesses. -/
def wDoc : Doc := { id := 1, content_starts_at_page := 1 }

/-- The concrete page of the C4 witness: content hello volts. -/
def wPage : PageRec :=
  { document_id := 1, pdf_page_number := 2, content := "hello volts", is_content := true }

/-- Witness for C4: the query volts has an exact match, so the search is
labelled exact and stage 1 is non-empty. -/
theorem searchPdf_stage_precedence_witness :
    (searchPdf [wPage] [wDoc] ("volts")).2 = Method.exact
    ∧ stage1 [wPage] [wDoc] ("volts") ≠ [] := by
  have h := searchPdf_stage_precedence [wPage] [wDoc] ("volts") (by decide)
  have h2 := h.1 ⟨wDoc, by decide, wPage, by decide, by decide, by decide, by decide⟩
  exact ⟨h2.1, h2.2.2⟩

/-- The concrete page of the C5 evaluation: content cat x dog, so the
query cat dog has no exact match but both tokens occur. -/
def cbPage : PageRec :=
  { document_id := 1, pdf_page_number := 1, content := "cat x dog", is_content := true }

/-- Claim C5, evaluation at the failing input: on the query cat dog
against the single content page cat x dog, the word-overlap stage runs
(no exact match) and assigns the page the score 4, because the page is
retrieved once per token and the nested loop re-adds the count of all
contained tokens on every retrieval; the number of distinct query tokens
contained in the page is 2, so the score the claim (and the code's own
comment, count how many search words appear) prescribes differs from the
computed one. -/
theorem searchPdf_word_score_eval :
    (searchPdf [cbPage] [wDoc] ("cat dog")).2 = Method.wordBased
    ∧ (searchPdf [cbPage] [wDoc] ("cat dog")).1.map scoreKey = [4]
    ∧ ((splitWords ("cat dog")).filter fun w => ilike ("cat x dog") w).length = 2
    ∧ (4 : Int) ≠ 2 := by decide

/-- Witness for C10: on an empty page no number is detected and the
stored actualPageNumber is accordingly absent. -/
theorem analyzePage_sign_encoding_witness :
    (analyzePage envEx ("") 1).pageNumberType = none :=
  (analyzePage_sign_encoding envEx ("") 1).2.2.1.mpr (by decide)
